import Mathlib

/-!
Verification development for the easylang interpreter core.

This file gives a shallow embedding, in Lean 4, of the parts of the
easylang sources relevant to the checked claims:

* `variant/variant.go` — the tagged value model (`Iface`), `DeepEqual`,
  `Array.Get` / `Array.GetByte`, `Object` construction and iteration,
  and the canonical-bytes encoding produced by `MemReader` and consumed
  through `io.ReadAll`.
* the code generator (`code.go`, current version) — `evalBinary`, the
  binary-operator chain evaluation of `ExprCodeGen.CodeGen`, the string
  literal unescaping of `BasicLitCodeGen.CodeGen`, the import cycle
  check of `ImportExprCodeGen.CodeGen`, and the function-call machinery
  of `FuncExprCodeGen.CodeGen`.
* `vars.go` — `VarScope` and its return-value register.

Modelling conventions used throughout:

* Go `big.Float` numbers ("arbitrary-precision signed float" in the
  spec) are modelled as exact rationals plus signed infinities
  (`ENum`).  All the claims under study depend only on zero/infinity
  tests, signs, comparisons and small integer arithmetic, which are
  exact in both the source and this model.
* Go maps are value-keyed, unordered collections whose `range`
  iteration order is unspecified (and deliberately randomised by the
  Go runtime).  A map is modelled as an association list keyed by the
  map key, and every place the source *ranges over* a map takes an
  additional order-selector argument `Sel`: for an n-entry map the
  selector yields the visiting order as a permutation of `0..n-1`.
  A selector is `AdmissibleSel` when it always yields a permutation;
  a property of the source holds only if it holds for every
  admissible selector.
* Go runtime panics (out-of-range slice indexing) are distinguished
  from returned `error` values by the `GoRes` type.
-/

namespace EL

/-! ## Numbers: `variant.Num` (big.Float), exact fragment -/

/-- A `variant.Num` value: a `big.Float`, i.e. either a finite value
(modelled exactly as a rational) or a signed infinity.  `neg = true`
is negative infinity. -/
inductive ENum where
  | fin (q : ℚ)
  | inf (neg : Bool)
deriving DecidableEq

/-- Source `Num.IsInf` (`big.Float.IsInf`). -/
def ENum.isInf : ENum → Bool
  | .fin _ => false
  | .inf _ => true

/-- Source `Num.IsZero`: the source checks `Int64()` returns `0` exactly,
which holds precisely for the exact zero value. -/
def ENum.isZero : ENum → Bool
  | .fin q => q == 0
  | .inf _ => false

/-- Source `Num.Sign` (`big.Float.Sign`): -1, 0 or +1. -/
def ENum.sign : ENum → Int
  | .fin q => if q < 0 then -1 else if q = 0 then 0 else 1
  | .inf neg => if neg then -1 else 1

/-- Source `big.Float.IsInt`: finite with no fractional part; infinities are
not integers. -/
def ENum.isInt : ENum → Bool
  | .fin q => q.den == 1
  | .inf _ => false

/-- Source `big.Float.Add`.  The source only calls this after ruling out
inf + inf with opposite signs, so that case is immaterial here. -/
def ENum.add : ENum → ENum → ENum
  | .fin a, .fin b => .fin (a + b)
  | .inf s, _ => .inf s
  | .fin _, .inf s => .inf s

/-- Source `big.Float.Sub`.  The source only calls this after ruling out
inf - inf with equal signs. -/
def ENum.sub : ENum → ENum → ENum
  | .fin a, .fin b => .fin (a - b)
  | .inf s, _ => .inf s
  | .fin _, .inf s => .inf (!s)

/-- Source `big.Float.Mul`.  The source only calls this after ruling out
0 * inf. -/
def ENum.mul : ENum → ENum → ENum
  | .fin a, .fin b => .fin (a * b)
  | .inf s, .fin b => .inf (s != decide (b < 0))
  | .fin a, .inf s => .inf (s != decide (a < 0))
  | .inf s, .inf t => .inf (s != t)

/-- Source `big.Float.Quo`.  The source rules out 0/0 and inf/inf before
calling; a nonzero finite or infinite value divided by zero is a
signed infinity, and a finite value divided by infinity is zero. -/
def ENum.quo : ENum → ENum → ENum
  | .fin a, .fin b => if b = 0 then .inf (decide (a < 0)) else .fin (a / b)
  | .fin _, .inf _ => .fin 0
  | .inf s, .fin b => .inf (s != decide (b < 0))
  | .inf s, .inf t => .inf (s != t)

/-- Source `big.Float.Cmp` equality (`Cmp == 0`): equal finite values, or
infinities of the same sign. -/
def ENum.eqCmp : ENum → ENum → Bool
  | .fin a, .fin b => a == b
  | .inf s, .inf t => s == t
  | _, _ => false

/-- Source `Num.LessThan` (`Cmp == -1`): -inf below every finite value,
every finite value below +inf. -/
def ENum.lt : ENum → ENum → Bool
  | .fin a, .fin b => a < b
  | .inf s, .inf t => s && !t
  | .inf s, .fin _ => s
  | .fin _, .inf t => !t

/-- Source `Num.LessOrEqualTo` (`Cmp <= 0`). -/
def ENum.le (a b : ENum) : Bool := a.lt b || a.eqCmp b

/-- Source `Num.GreaterThan` (`Cmp == 1`). -/
def ENum.gt (a b : ENum) : Bool := b.lt a

/-- Source `Num.GreaterOrEqualTo` (`Cmp >= 0`). -/
def ENum.ge (a b : ENum) : Bool := b.le a

/-! ## Values: `variant.Iface` -/

/-- A runtime value (`variant.Iface`).  `varr` carries the three
fields of `variant.Array`: the bytes-mode flag `bmode`, the generic
element slice `v` and the byte buffer `bs` (the source constructors
populate `v` in generic mode and `bs` in bytes mode).  `vobj`
carries the entries of the two parallel Go maps of `variant.Object`
keyed by the canonical key bytes: each entry is
(canonical key bytes, original key value, mapped value).
`vfunc` abstracts from the closure payload, which no checked claim
inspects. -/
inductive Value where
  | vnone
  | vbool (b : Bool)
  | vnum (n : ENum)
  | vstr (s : String)
  | varr (bmode : Bool) (v : List Value) (bs : List Nat)
  | vobj (es : List (List Nat × Value × Value))
  | vfunc

instance : Inhabited Value := ⟨Value.vnone⟩

/-- One stored entry of a `variant.Object`. -/
abbrev ObjEntry := List Nat × Value × Value

/-- Source `variant.Type` tags, in source order (`TypeNone` = 0 .. `TypeFunc` = 6). -/
def typeOf : Value → Nat
  | .vnone => 0
  | .vbool _ => 1
  | .vnum _ => 2
  | .vstr _ => 3
  | .varr _ _ _ => 4
  | .vobj _ => 5
  | .vfunc => 6

/-- Go map lookup `robj.v[k]` on the entry list of an object. -/
def lookupEntry (k : List Nat) : List ObjEntry → Option Value
  | [] => none
  | (k2, _, v) :: es => if k2 = k then some v else lookupEntry k es

/-! ## `variant.DeepEqual` -/

mutual
/-- Source `variant.DeepEqual`, transcribed case by case.  Note that the
`TypeArray` branch compares only the generic slices `larr.v` and
`rarr.v` — exactly as the source does, which never consults `bmode`
or the byte buffer `bs`. -/
def deepEqual : Value → Value → Bool
  | .vnone, .vnone => true
  | .vbool a, .vbool b => a == b
  | .vnum a, .vnum b => a.eqCmp b
  | .vstr a, .vstr b => a == b
  | .varr _ l _, .varr _ r _ => l.length == r.length && deepEqualList l r
  | .vobj l, .vobj r => l.length == r.length && deepEqualEntries l r
  | .vfunc, .vfunc => false
  | _, _ => false
/-- The element-wise loop of the `TypeArray` branch of `DeepEqual`
(lengths are already known equal when it runs). -/
def deepEqualList : List Value → List Value → Bool
  | [], _ => true
  | _ :: _, [] => false
  | x :: xs, y :: ys => deepEqual x y && deepEqualList xs ys
/-- The key loop of the `TypeObject` branch of `DeepEqual`: every
left entry must be present on the right with a deep-equal value. -/
def deepEqualEntries : List ObjEntry → List ObjEntry → Bool
  | [], _ => true
  | (k, _, lv) :: es, r =>
      (match lookupEntry k r with
       | some rv => deepEqual lv rv
       | none => false) && deepEqualEntries es r
end

/-! ## Canonical bytes: `MemReader` read through `io.ReadAll`

`Object` keys are the byte string obtained by `io.ReadAll` on the
key value's `MemReader`.  The readers concatenate, per value, a
one-byte type tag and a payload:

* `None`: tag only.
* `Bool`: tag only.  (`memReaderBool.Read` writes the payload byte
  into the buffer but returns count 0 together with `io.EOF`, so
  `io.ReadAll` never keeps the payload: both `true` and `false`
  encode as the bare tag.)
* `Num`: tag then the `big.Float.Append(_, g, prec)` decimal text.
  We model that text abstractly by `numRepr`: a fixed, deterministic,
  injective rendering of the value (sign, numerator digits, and the
  denominator when not 1); no checked claim depends on the exact
  digit string, only on its determinism.
* `String`: tag then the raw UTF-8 bytes.
* `Array`: tag then the concatenated child encodings of the generic
  slice `v.v` — a bytes-mode array has an empty `v.v`, so it encodes
  as the bare tag.
* `Object`: tag then, for each entry of the Go map `v.v` in map
  range order, the canonical key bytes followed by the value's
  encoding.  The range order is the unspecified Go map order: it is
  supplied by the order selector.
* `Func`: `memReaderFunc` fails with "function has no memory".
-/

/-- UTF-8 encoding of one character (RFC 3629), as byte values. -/
def utf8Char (c : Char) : List Nat :=
  let n := c.toNat
  if n < 128 then [n]
  else if n < 2048 then [192 + n / 64, 128 + n % 64]
  else if n < 65536 then [224 + n / 4096, 128 + (n / 64) % 64, 128 + n % 64]
  else [240 + n / 262144, 128 + (n / 4096) % 64, 128 + (n / 64) % 64, 128 + n % 64]

/-- UTF-8 bytes of a string. -/
def strBytes (s : String) : List Nat := (s.data.map utf8Char).flatten

/-- Decimal digit bytes of a natural number, most significant first;
the first argument is fuel (any value above the digit count works). -/
def natDecimalAux : Nat → Nat → List Nat
  | 0, _ => []
  | fuel + 1, n => if n = 0 then [] else natDecimalAux fuel (n / 10) ++ [48 + n % 10]

/-- Decimal digit bytes of a natural number. -/
def natDecimal (n : Nat) : List Nat :=
  if n = 0 then [48] else natDecimalAux (n + 1) n

/-- Deterministic, injective rendering of a number value, standing in
for the `big.Float` decimal text used by `Num.MemReader` (sign byte,
numerator digits, and a slash plus denominator digits when the value
is not an integer; `+Inf` / `-Inf` for the infinities). -/
def numRepr : ENum → List Nat
  | .inf s => strBytes (if s then "-Inf" else "+Inf")
  | .fin q =>
      (if q.num < 0 then [45] else []) ++ natDecimal q.num.natAbs ++
        (if q.den = 1 then [] else 47 :: natDecimal q.den)

/-- An order selector: for an n-entry Go map it yields the sequence of
entry indexes visited by a `range` statement. -/
abbrev Sel := Nat → List Nat

/-- A selector is admissible when every entry is visited exactly once:
the yielded index sequence is a permutation of `0..n-1`.  This is the
only guarantee the Go specification gives for map iteration order. -/
def AdmissibleSel (σ : Sel) : Prop := ∀ n, (σ n).Perm (List.range n)

/-- Visit the elements of a list in the order given by the selector. -/
def applySel {α : Type} [Inhabited α] (σ : Sel) (l : List α) : List α :=
  (σ l.length).map (fun i => l.getD i default)

/-- The in-order selector (one possible map range order). -/
def selId : Sel := fun n => List.range n

/-- The reversed selector (another possible map range order). -/
def selRev : Sel := fun n => (List.range n).reverse

mutual
/-- The byte sequence produced by `io.ReadAll(v.MemReader())`, or the
read error for `Func` values; `σ` supplies the Go map range order used
by `Object.MemReader`. -/
def memBytes (σ : Sel) : Value → Except String (List Nat)
  | .vnone => .ok [0]
  | .vbool _ => .ok [1]
  | .vnum n => .ok (2 :: numRepr n)
  | .vstr s => .ok (3 :: strBytes s)
  | .varr _ v _ => (memBytesList σ v).map (fun cs => 4 :: cs.flatten)
  | .vobj es => (memBytesEntries σ es).map (fun cs => 5 :: (applySel σ cs).flatten)
  | .vfunc => .error "function has no memory"
/-- Child encodings of an array's generic slice, in slice order; a
failing child read fails the whole read, as with `io.MultiReader`. -/
def memBytesList (σ : Sel) : List Value → Except String (List (List Nat))
  | [] => .ok []
  | v :: vs =>
      match memBytes σ v with
      | .error e => .error e
      | .ok b =>
          match memBytesList σ vs with
          | .error e => .error e
          | .ok bs => .ok (b :: bs)
/-- Per-entry chunks of an object encoding: stored canonical key bytes
followed by the value's encoding.  The chunks are computed here in
storage order; `memBytes` then arranges them in map range order. -/
def memBytesEntries (σ : Sel) : List ObjEntry → Except String (List (List Nat))
  | [] => .ok []
  | (k, _, v) :: es =>
      match memBytes σ v with
      | .error e => .error e
      | .ok b =>
          match memBytesEntries σ es with
          | .error e => .error e
          | .ok bs => .ok ((k ++ b) :: bs)
end

/-! ## `variant.Object` construction and iteration -/

/-- Go map assignment `m[kb] = v` together with `ks[kb] = k`: update
the entry in place when the canonical key is present, otherwise add
it. -/
def objUpsert (k : List Nat) (origKey v : Value) : List ObjEntry → List ObjEntry
  | [] => [(k, origKey, v)]
  | (k2, ok2, v2) :: es =>
      if k2 = k then (k, origKey, v) :: es
      else (k2, ok2, v2) :: objUpsert k origKey v es

/-- The key/value population loop of `variant.NewObject` (also the
composite-literal path through `MustNewObject`): canonicalise each
key, then store into both maps.  `σ` is the map order selector used
when a key is itself an object. -/
def newObjectAux (σ : Sel) : List Value → List Value → List ObjEntry →
    Except String (List ObjEntry)
  | [], [], acc => .ok acc
  | k :: ks, v :: vs, acc => do
      let kb ← match memBytes σ k with
        | .ok kb => pure kb
        | .error e => .error ("read key mem: " ++ e)
      newObjectAux σ ks vs (objUpsert kb k v acc)
  | _, _, _ => .error "the number of keys does not match the number of values"

/-- Source `variant.NewObject(keys, values)`. -/
def newObject (σ : Sel) (keys vals : List Value) : Except String (List ObjEntry) :=
  newObjectAux σ keys vals []

/-- The (key, value) pairs visited by `Object.IterFunc` when the
callback never breaks: the stored entries, in the Go map range order
given by the selector, each visited with its original key. -/
def iterItems (σ : Sel) (es : List ObjEntry) : List (Value × Value) :=
  (applySel σ es).map (fun e => (e.2.1, e.2.2))

/-- The keys visited by `Object.IterFunc`, in visiting order. -/
def iterKeys (σ : Sel) (es : List ObjEntry) : List Value :=
  (iterItems σ es).map (fun p => p.1)

/-! ## `lexer` operator predicates and priorities -/

/-- Source `lexer.IsArithOp`. -/
def isArithOp (op : String) : Bool :=
  op == "+" || op == "-" || op == "*" || op == "/" || op == "%"

/-- Source `lexer.IsCmpOp`. -/
def isCmpOp (op : String) : Bool :=
  op == "==" || op == "!=" || op == "<" || op == "<=" || op == ">" || op == ">="

/-- Source `lexer.IsPredicateOp`. -/
def isPredicateOp (op : String) : Bool :=
  op == "and" || op == "or"

/-- Source `lexer.operatorPriorities` (via `MustOperatorPriority`; unknown
operators cannot reach the chain evaluator, modelled as priority 0). -/
def operatorPriority (op : String) : Nat :=
  if op == "*" || op == "/" || op == "%" then 5
  else if op == "+" || op == "-" then 4
  else if isCmpOp op then 3
  else if op == "and" then 2
  else if op == "or" then 1
  else 0

/-! ## `evalBinary` -/

/-- Truncation toward zero of a rational, as `big.Float.Int` does for
the quotient in the non-integer modulus branch (`Int` division on ℤ
truncates toward zero, matching it). -/
def truncQ (q : ℚ) : Int := q.num / (q.den : Int)

/-- The non-integer branch of the `%` case of `evalBinary`, for finite
operands with a nonzero divisor: x - trunc(x/y)*y, then the
negative-dividend adjustment that adds (the absolute value of) the
divisor. -/
def floatMod (l r : ℚ) : ℚ :=
  let div := l / r
  let divInt : Int := truncQ div
  let mul : ℚ := (divInt : ℚ) * r
  let num := l - mul
  if l < 0 then
    if r > 0 then r + num else -r + num
  else num

/-- The arithmetic section of `evalBinary` (both operands already
known to be `Num`): the `switch op` over the five operators,
transcribed guard by guard.  `%` first rejects an infinite or zero
divisor, then uses `big.Int.Mod` on two integer operands — the
EUCLIDEAN modulus, which Lean's `Int.emod` also computes (both
return the unique representative in `[0, |divisor|)`) — and
otherwise the truncated float remainder with the negative-dividend
adjustment (`floatMod`), after passing an infinite quotient (an
infinite dividend) straight through. -/
def evalArith (op : String) (lnum rnum : ENum) : Except String ENum :=
  match op with
  | "+" =>
    if lnum.isInf && rnum.isInf && lnum.sign != rnum.sign then
      .error "op +: addition of inf and inf with opposite signs"
    else .ok (lnum.add rnum)
  | "-" =>
    if lnum.isInf && rnum.isInf && lnum.sign == rnum.sign then
      .error "op -: subtraction of inf from inf with equal signs"
    else .ok (lnum.sub rnum)
  | "/" =>
    if lnum.isZero && rnum.isZero then
      .error "op /: division of zero into zero"
    else if lnum.isInf && rnum.isInf then
      .error "op /: division of inf into inf"
    else .ok (lnum.quo rnum)
  | "*" =>
    if (lnum.isZero && rnum.isInf) || (lnum.isInf && rnum.isZero) then
      .error "op *: one operand is zero and the other operand an infinity"
    else .ok (lnum.mul rnum)
  | "%" =>
    if rnum.isInf then .error "op %: modulus with inf"
    else if rnum.isZero then .error "op %: modulus with zero"
    else if lnum.isInt && rnum.isInt then
      match lnum, rnum with
      | .fin a, .fin b => .ok (.fin ((a.num.emod b.num : Int) : ℚ))
      | _, _ => .ok (.fin 0)
    else if (lnum.quo rnum).isInf then .ok (lnum.quo rnum)
    else
      match lnum, rnum with
      | .fin a, .fin b => .ok (.fin (floatMod a b))
      | _, _ => .ok (.fin 0)
  | _ => .error "unknown operation number-number"

/-- Source `Array.Concat`: bytes + bytes stays bytes mode; otherwise each
bytes-mode side is lifted to generic elements (bytes become unsigned
`Num`s) and the generic slices are concatenated into a fresh generic
array. -/
def arrConcat (lb : Bool) (lv : List Value) (lbs : List Nat)
    (rb : Bool) (rv : List Value) (rbs : List Nat) : Value :=
  if lb && rb then .varr true [] (lbs ++ rbs)
  else
    let larr := if lb then lbs.map (fun b => Value.vnum (.fin (b : ℚ))) else lv
    let rarr := if rb then rbs.map (fun b => Value.vnum (.fin (b : ℚ))) else rv
    .varr false (larr ++ rarr) []

/-- Source `evalBinary(op, lval, rval)`, transcribed in source order:
string concatenation, array concatenation, comparison operators
(deep equality, numeric order), `Num` arithmetic, boolean
connectives. -/
def evalBinary (op : String) (lval rval : Value) : Except String Value :=
  match op == "+", lval, rval with
  | true, .vstr ls, .vstr rs => .ok (.vstr (ls ++ rs))
  | true, .varr lb lv lbs, .varr rb rv rbs => .ok (arrConcat lb lv lbs rb rv rbs)
  | _, _, _ =>
    if isCmpOp op then
      if typeOf rval ≠ typeOf lval then
        .error "unsupported operand type for cmp: tags differ"
      else if op == "==" then .ok (.vbool (deepEqual lval rval))
      else if op == "!=" then .ok (.vbool (!deepEqual lval rval))
      else
        match lval, rval with
        | .vnum lnum, .vnum rnum =>
            if op == "<" then .ok (.vbool (lnum.lt rnum))
            else if op == "<=" then .ok (.vbool (lnum.le rnum))
            else if op == ">" then .ok (.vbool (lnum.gt rnum))
            else .ok (.vbool (lnum.ge rnum))
        | _, _ => .error "unsupported operand type for order cmp: expected numbers"
    else if isArithOp op then
      match lval, rval with
      | .vnum lnum, .vnum rnum => (evalArith op lnum rnum).map Value.vnum
      | _, _ => .error "unsupported operand type for arith: expected numbers"
    else if isPredicateOp op then
      match lval, rval with
      | .vbool lb, .vbool rb =>
          if op == "and" then .ok (.vbool (lb && rb)) else .ok (.vbool (lb || rb))
      | _, _ => .error "unsupported operand type for predicate: expected bools"
    else .error "unknown operation"

/-! ## `Array.Get` and `Array.GetByte` -/

/-- Outcome of a Go call that may either return an error value or
crash with a runtime panic (out-of-range slice indexing). -/
inductive GoRes (α : Type) where
  | ok (a : α)
  | err (msg : String)
  | crashed (msg : String)
deriving DecidableEq

/-- Source `Array.GetByte(idx)`: rejects generic arrays; normalises a
negative index into `norm`; checks only `norm >= len`; then indexes
the byte slice with the ORIGINAL index `idx` (`v.bs[idx]`), which is
a runtime panic whenever `idx` is negative. -/
def arrayGetByte (bmode : Bool) (bs : List Nat) (idx : Int) : GoRes Nat :=
  if !bmode then .err "use Get() instead for generic array"
  else
    let norm := if idx < 0 then (bs.length : Int) + idx else idx
    if norm ≥ (bs.length : Int) then .err "index out of range"
    else if 0 ≤ idx then .ok (bs.getD idx.toNat 0)
    else .crashed "runtime error: index out of range"

/-- Source `Array.Get(idx)`: in bytes mode delegates to `GetByte` and lifts
the byte to an unsigned `Num`; in generic mode normalises a negative
index into `norm`, checks only `norm >= len`, and indexes `v.v[norm]`
— a runtime panic when `norm` is still negative (idx below -len). -/
def arrayGet (bmode : Bool) (v : List Value) (bs : List Nat) (idx : Int) : GoRes Value :=
  if bmode then
    match arrayGetByte bmode bs idx with
    | .ok b => .ok (.vnum (.fin (b : ℚ)))
    | .err m => .err m
    | .crashed m => .crashed m
  else
    let norm := if idx < 0 then (v.length : Int) + idx else idx
    if norm ≥ (v.length : Int) then .err "index out of range"
    else if 0 ≤ norm then .ok (v.getD norm.toNat .vnone)
    else .crashed "runtime error: index out of range"

/-! ## Binary-operator chains: `ExprCodeGen.CodeGen`

The expression compiler collects the operators of a chain with their
priorities and original positions, sorts them by descending priority
(`sort.Slice`; for the chain lengths involved in the claims — fewer
than 12 operators — Go's sort runs its insertion sort, which performs
adjacent swaps only and is therefore stable, matching the stable
descending sort modelled here), and then evaluates: for each operator
in sorted order it takes, for each of its two original operand
positions, either the operand itself (if that position was not yet
consumed, per `evalMask`) or a value popped from the top of the
result stack; combines them with `evalBinary`; and pushes the result.
The final value is `stack[0]`.

For the claims only pure operand values matter, so the operand
evaluators `evals[i]` are modelled by a list of values. -/

/-- The per-operator record built by `ExprCodeGen.CodeGen` (`opinfo`). -/
structure OpInfo where
  op : String
  prior : Nat
  origPos : Nat

/-- Insert an operator into a descending-sorted list, after all
operators of greater or equal priority: together with `sortOpsDesc`
this is the stable descending sort by priority that `sort.Slice`
computes on these inputs. -/
def insertOpDesc (x : OpInfo) : List OpInfo → List OpInfo
  | [] => [x]
  | y :: ys => if y.prior ≥ x.prior then y :: insertOpDesc x ys else x :: y :: ys

/-- Stable sort of the operator list by descending priority,
position order preserved within equal priorities. -/
def sortOpsDesc (l : List OpInfo) : List OpInfo :=
  l.foldl (fun acc x => insertOpDesc x acc) []

/-- State of the evaluation loop: the per-position `evalMask` and the
result stack (a Go slice appended at the end and popped at the end;
index 0 is the bottom). -/
structure ChainState where
  mask : List Bool
  stack : List Value

/-- Source `getVal`: an unconsumed operand evaluates itself; a consumed
position takes the TOP of the result stack (`(*stack)[len-1]`),
popping it.  Popping an empty stack would be a Go panic. -/
def getVal (v : Option Value) (stack : List Value) : Except String (Value × List Value) :=
  match v with
  | some w => .ok (w, stack)
  | none =>
      match stack.getLast? with
      | some w => .ok (w, stack.dropLast)
      | none => .error "go panic: pop from empty result stack"

/-- One iteration of the evaluation loop of `ExprCodeGen.CodeGen` for
the operator `o`: fetch the right value then the left value (in that
source order), combine, push. -/
def chainStep (vals : List Value) (st : ChainState) (o : OpInfo) :
    Except String ChainState := do
  let i := o.origPos
  let lv := if st.mask.getD i false then none else some (vals.getD i .vnone)
  let rv := if st.mask.getD (i + 1) false then none else some (vals.getD (i + 1) .vnone)
  let mask := (st.mask.set i true).set (i + 1) true
  let (rval, stack) ← getVal rv st.stack
  let (lval, stack) ← getVal lv stack
  let res ← evalBinary o.op lval rval
  .ok ⟨mask, stack ++ [res]⟩

/-- The whole chain evaluation of `ExprCodeGen.CodeGen`: `vals` are
the operand values left to right (`evals`), `opstrs` the operator
lexemes between them.  An empty operator list is the early return of
the bare unary expression. -/
def chainEval (vals : List Value) (opstrs : List String) : Except String Value :=
  match opstrs with
  | [] =>
      match vals with
      | [v] => .ok v
      | _ => .error "malformed chain"
  | _ :: _ => do
      let ops := sortOpsDesc ((opstrs.enum).map fun p =>
        { op := p.2, prior := operatorPriority p.2, origPos := p.1 })
      let st ← ops.foldlM (chainStep vals) ⟨List.replicate vals.length false, []⟩
      match st.stack with
      | v :: _ => .ok v
      | [] => .error "go panic: empty result stack"

/-- Modelled from the spec: the reference left-associative
precedence evaluation — "higher-precedence operators bind tighter
and operators of equal precedence are evaluated left-to-right".
Repeatedly reduce the leftmost operator among those of maximal
priority until one value remains.  This definition follows the
spec's words and exists to be compared with `chainEval`, which is
the code's algorithm. -/
def specChainEvalAux : Nat → List Value → List String → Except String Value
  | _, vals, [] =>
      match vals with
      | [v] => .ok v
      | _ => .error "malformed chain"
  | 0, _, _ => .error "fuel exhausted"
  | fuel + 1, vals, op :: ops => do
      let rest := op :: ops
      let m := (rest.map operatorPriority).foldl max 0
      let j := rest.findIdx (fun o => operatorPriority o = m)
      let l := vals.getD j .vnone
      let r := vals.getD (j + 1) .vnone
      let res ← evalBinary (rest.getD j "") l r
      specChainEvalAux fuel (vals.take j ++ res :: vals.drop (j + 2))
        (rest.take j ++ rest.drop (j + 1))

/-- Modelled from the spec: entry point of the reference
left-associative precedence evaluation. -/
def specChainEval (vals : List Value) (opstrs : List String) : Except String Value :=
  specChainEvalAux opstrs.length vals opstrs

/-! ## Imports: `ImportExprCodeGen.CodeGen`

An execution is modelled as a tree of files, each file listing its
`import` expressions in lowering order (the importer parses and
lowers an imported file recursively inside `CodeGen`, so the cycle
check runs in depth-first preorder).  The importer state
`imports.ImportedPaths` is a Go map used as a set of paths; only
membership is observed, so it is modelled as a list.  The source
inserts into the set before recursing and NEVER removes. -/

/-- A source file, given by the (normalised) paths it imports, each
with the file it resolves to. -/
inductive ImportTree where
  | file (imports : List (String × ImportTree))

mutual
/-- Lowering one `import` expression (`ImportExprCodeGen.CodeGen`,
cycle-check portion): error when the path is already in
`ImportedPaths`, otherwise add it and lower the imported file.
Returns the importer state after the import — the path is still in
the set, the source never deletes it. -/
def codeImport (seen : List String) : String × ImportTree → Except String (List String)
  | (path, t) =>
      if path ∈ seen then .error "import cycle not allowed"
      else codeFile (path :: seen) t
/-- Lowering all imports of one file, left to right, threading the
importer state. -/
def codeFile (seen : List String) : ImportTree → Except String (List String)
  | .file imps => codeImports seen imps
/-- Helper of `codeFile`: fold over the import list. -/
def codeImports (seen : List String) : List (String × ImportTree) → Except String (List String)
  | [] => .ok seen
  | i :: is => do
      let seen2 ← codeImport seen i
      codeImports seen2 is
end

mutual
/-- Modelled from the spec: cycle detection that errors exactly when
the path is on the CURRENT chain of in-progress imports.  The chain
grows while the imported file is being processed and is popped when
the import completes (siblings see the original chain).  This
definition follows the spec's words and exists to be compared with
`codeImport`, which is the code's never-popped set. -/
def specImport (chain : List String) : String × ImportTree → Except String Unit
  | (path, t) =>
      if path ∈ chain then .error "import cycle not allowed"
      else specFile (path :: chain) t
/-- Modelled from the spec: process a file's imports against the
current chain. -/
def specFile (chain : List String) : ImportTree → Except String Unit
  | .file imps => specImports chain imps
/-- Modelled from the spec: fold over the import list; each sibling
starts from the same chain. -/
def specImports (chain : List String) : List (String × ImportTree) → Except String Unit
  | [] => .ok ()
  | i :: is => do
      specImport chain i
      specImports chain is
end

/-- A flat file importing the given paths, each resolving to a file
with no imports of its own. -/
def leafFile (ps : List String) : ImportTree :=
  .file (ps.map fun p => (p, .file []))

/-! ## Function calls: `FuncExprCodeGen.CodeGen` and `VarScope`

A `VarScope` (vars.go) maps registers to values; register 0
(`RegisterReturn`) is reserved for the frame's return value.  For a
function literal with a block body, `OperandCodeGen` creates ONE new
scope at lowering time, argument registers are allocated in it, and
the generated closure reuses that same scope on every call: it binds
the arguments, invokes the block, swallows `ErrStmtFinished`, and
reads `GetReturn` — register 0, defaulting to `None` when the
register has never been written.  Nothing ever clears register 0
between calls.

The statement invokers needed by the claims are modelled as
functions from the function's scope to the updated scope plus an
optional signal, mirroring the generated closures: the scope is the
only state they touch in the programs at issue. -/

/-- The values stored in a scope's register map (`VarScope.m`).
Association list keyed by register; only keyed lookup is observed. -/
structure VarScope where
  m : List (Nat × Value)

/-- Empty scope, as built by `NewVarScope`. -/
def emptyScope : VarScope := ⟨[]⟩

/-- Go map assignment on a register map: update in place when the
register is present, otherwise add the binding. -/
def regUpsert (r : Nat) (v : Value) : List (Nat × Value) → List (Nat × Value)
  | [] => [(r, v)]
  | (r2, v2) :: es => if r2 = r then (r, v) :: es else (r2, v2) :: regUpsert r v es

/-- Source `VarScope.DefineVar`: Go map assignment (upsert). -/
def VarScope.defineVar (s : VarScope) (r : Nat) (v : Value) : VarScope :=
  ⟨regUpsert r v s.m⟩

/-- Source `VarScope.GetVar`. -/
def VarScope.getVar (s : VarScope) (r : Nat) : Option Value :=
  (s.m.find? (fun e => e.1 == r)).map (fun e => e.2)

/-- Source `VarScope.SetReturn`: write register 0. -/
def VarScope.setReturn (s : VarScope) (v : Value) : VarScope :=
  s.defineVar 0 v

/-- Source `VarScope.GetReturn`: read register 0, `None` when absent. -/
def VarScope.getReturn (s : VarScope) : Value :=
  (s.getVar 0).getD .vnone

/-- The control signals carried as sentinel errors by statement
invokers (`ErrStmtFinished`, `ErrLoopContinue`, `ErrLoopBreak`), plus
genuine runtime errors. -/
inductive Sig where
  | stmtFinished
  | loopContinue
  | loopBreak
  | runtime (msg : String)
deriving DecidableEq

/-- A lowered statement: the closure produced by a statement code
generator, acting on the function scope. -/
abbrev Invoker := VarScope → VarScope × Option Sig

/-- The invoker generated by `ReturnStmtCodeGen` for a return of a
constant expression: `SetReturn` then `ErrStmtFinished`. -/
def returnInvoker (v : Value) : Invoker :=
  fun s => (s.setReturn v, some .stmtFinished)

/-- The invoker generated by `IfStmtCodeGen` (no else) whose
condition is a variable read: evaluate the condition register,
require a bool, run the branch when true. -/
def ifInvoker (condReg : Nat) (thenInv : Invoker) : Invoker := fun s =>
  match s.getVar condReg with
  | some (.vbool true) => thenInv s
  | some (.vbool false) => (s, none)
  | _ => (s, some (.runtime "condition expression must be bool"))

/-- The invoker generated by `BlockStmtCodeGen`: run the statements
in order, stopping at the first signal. -/
def blockInvoker (l : List Invoker) : Invoker := fun s =>
  match l with
  | [] => (s, none)
  | inv :: rest =>
      match inv s with
      | (s2, none) => blockInvoker rest s2
      | (s2, some e) => (s2, some e)

/-- The call closure produced by `FuncExprCodeGen.CodeGen` for a
block-bodied function: exact arity check, bind the arguments into
the argument registers of the (shared, lowering-time) function
scope, invoke the block, treat `ErrStmtFinished` as normal
completion, propagate other errors, and return `GetReturn` of the
function scope.  The scope is threaded in and out: the Go closure
mutates the one scope object it captured. -/
def funcCallBlock (argRegs : List Nat) (body : Invoker) (s : VarScope)
    (args : List Value) : Except String (VarScope × Value) :=
  if args.length ≠ argRegs.length then
    .error "wrong number of arguments"
  else
    let s := (argRegs.zip args).foldl (fun sc p => sc.defineVar p.1 p.2) s
    match body s with
    | (s2, none) => .ok (s2, s2.getReturn)
    | (s2, some .stmtFinished) => .ok (s2, s2.getReturn)
    | (_, some .loopContinue) => .error "loop continue escaped"
    | (_, some .loopBreak) => .error "loop break escaped"
    | (_, some (.runtime m)) => .error m

/-- The lowered body of the one-argument function
`fn = |b| => \x7b if b \x7b return 42 \x7d \x7d`
with the argument bound to register 1 of the function scope: the
block contains a single if-statement guarding a `return 42`. -/
def demoFuncBody : Invoker :=
  blockInvoker [ifInvoker 1 (blockInvoker [returnInvoker (.vnum (.fin 42))])]

/-! ## String literals: `BasicLitCodeGen.CodeGen`

The string branch trims the quotes and walks the runes with an
`atEsc` flag.  A backslash always (re-)enters escape mode — this
check precedes the escape dispatch.  In escape mode, `u`/`U` consume
the following 4/8 characters as hex (errors when too short or not
hex), the recognised single-character escapes append their
translation, and ANY other character is dropped silently (the switch
has no default case).  Outside escape mode characters are copied.
The Go code indexes bytes while ranging over runes; the two agree on
the ASCII escape windows, and both sides fail on non-ASCII hex, so
this character-level model coincides on all inputs the claims
quantify over. -/

/-- Hex digit value accepted by `strconv.ParseUint(_, 16, 32)`. -/
def hexVal (c : Char) : Option Nat :=
  if '0' ≤ c ∧ c ≤ '9' then some (c.toNat - 48)
  else if 'a' ≤ c ∧ c ≤ 'f' then some (c.toNat - 87)
  else if 'A' ≤ c ∧ c ≤ 'F' then some (c.toNat - 55)
  else none

/-- Source `strconv.ParseUint(sub, 16, 32)` on a short hex window:
all characters must be hex digits. -/
def parseHexAux : List Char → Nat → Option Nat
  | [], acc => some acc
  | c :: cs, acc =>
      match hexVal c with
      | none => none
      | some d => parseHexAux cs (acc * 16 + d)

/-- Hex value of a character window, or `none` when a character is
not a hex digit. -/
def parseHex (cs : List Char) : Option Nat := parseHexAux cs 0

/-- The rune-processing loop of the string branch of
`BasicLitCodeGen.CodeGen`, on the quote-trimmed content; the flag is
`atEsc`.  The `u`/`U` cases check the remaining length
(`lenAfter < 4`), slice the window (`s[i+1 : i+5]`), parse it as hex,
and skip it (`jump`), exactly as the source does. -/
def unescGo : List Char → Bool → Except String (List Char)
  | [], _ => .ok []
  | c :: rest, esc =>
      if c = '\\' then
        if rest.isEmpty then .error "bad string literal: backslash not escaped"
        else unescGo rest true
      else if esc then
        if c = 'u' then
          if rest.length < 4 then
            .error "bad string literal: invalid u escape, expected 4 bytes"
          else
            match parseHex (rest.take 4) with
            | none => .error "bad string literal: illegal char in escape sequence"
            | some v => (fun t => Char.ofNat v :: t) <$> unescGo (rest.drop 4) false
        else if c = 'U' then
          if rest.length < 8 then
            .error "bad string literal: invalid U escape, expected 8 bytes"
          else
            match parseHex (rest.take 8) with
            | none => .error "bad string literal: illegal char in escape sequence"
            | some v => (fun t => Char.ofNat v :: t) <$> unescGo (rest.drop 8) false
        else if c = 'a' then (fun t => Char.ofNat 7 :: t) <$> unescGo rest false
        else if c = 'b' then (fun t => Char.ofNat 8 :: t) <$> unescGo rest false
        else if c = 'f' then (fun t => Char.ofNat 12 :: t) <$> unescGo rest false
        else if c = 'n' then (fun t => Char.ofNat 10 :: t) <$> unescGo rest false
        else if c = 'r' then (fun t => Char.ofNat 13 :: t) <$> unescGo rest false
        else if c = 't' then (fun t => Char.ofNat 9 :: t) <$> unescGo rest false
        else if c = 'v' then (fun t => Char.ofNat 11 :: t) <$> unescGo rest false
        else if c = '\'' then (fun t => '\'' :: t) <$> unescGo rest false
        else if c = '"' then (fun t => '"' :: t) <$> unescGo rest false
        else unescGo rest false
      else (fun t => c :: t) <$> unescGo rest false
  termination_by l _ => l.length
  decreasing_by all_goals first | (simp; omega) | simp

/-- The characters the escape dispatch recognises (the claim's
"recognized escape set"); a backslash after a backslash re-enters
escape mode via the earlier branch, so it belongs to the set too. -/
def recognizedEsc (c : Char) : Bool :=
  c = 'a' ∨ c = 'b' ∨ c = 'f' ∨ c = 'n' ∨ c = 'r' ∨ c = 't' ∨ c = 'v' ∨
    c = '\\' ∨ c = '\'' ∨ c = '"' ∨ c = 'u' ∨ c = 'U'

/-! ## Restriction predicates and concrete witnesses used by the theorems -/

mutual
/-- Holds when no object anywhere inside the value has two or more
entries — the fragment on which the canonical encoding does not
depend on Go map iteration order. -/
def noMultiObj : Value → Bool
  | .varr _ v _ => noMultiObjList v
  | .vobj es => decide (es.length ≤ 1) && noMultiObjEntries es
  | _ => true
/-- List version of `noMultiObj` for array elements. -/
def noMultiObjList : List Value → Bool
  | [] => true
  | v :: vs => noMultiObj v && noMultiObjList vs
/-- Entry version of `noMultiObj` for object values. -/
def noMultiObjEntries : List ObjEntry → Bool
  | [] => true
  | (_, _, v) :: es => noMultiObj v && noMultiObjEntries es
end

/-- The entries of the object built by inserting key "a" (value 1)
and then key "b" (value 2): the canonical key bytes are the string
tag 3 followed by the UTF-8 bytes. -/
def demoEntries : List ObjEntry :=
  [([3, 97], .vstr "a", .vnum (.fin 1)), ([3, 98], .vstr "b", .vnum (.fin 2))]

/-- A one-entry object value, inside the order-independent fragment. -/
def demoSingleObj : Value := .vobj [([3, 97], .vstr "a", .vnum (.fin 1))]

/-!
## Theorems

Sanity checks first: the model reproduces the repository's own test
expectations, including the `Binary_Priority` expression test and the
integer modulus tests of `TestExprCode`.
-/

/-- Sanity: the repository test `Binary_Priority`
(`false or 2 * 2 - 4 % 3 * 2 / 2 + 1 == 4 and true` evaluates to
`true`) holds in the chain model. -/
theorem sanity_binary_priority_test :
    chainEval
      [.vbool false, .vnum (.fin 2), .vnum (.fin 2), .vnum (.fin 4), .vnum (.fin 3),
       .vnum (.fin 2), .vnum (.fin 2), .vnum (.fin 1), .vnum (.fin 4), .vbool true]
      ["or", "*", "-", "%", "*", "/", "+", "==", "and"] = .ok (.vbool true) := by
  with_unfolding_all rfl

/-- Sanity: the repository tests `Binary_ArithOp_Mod_Int`(`_NegX`,
`_NegY`, `_NegXY`): `4 % 3 = 1`, `-4 % 3 = 2`, `4 % -3 = 1`,
`-4 % -3 = 2`. -/
theorem sanity_int_mod_tests :
    evalBinary "%" (.vnum (.fin 4)) (.vnum (.fin 3)) = .ok (.vnum (.fin 1)) ∧
    evalBinary "%" (.vnum (.fin (-4))) (.vnum (.fin 3)) = .ok (.vnum (.fin 2)) ∧
    evalBinary "%" (.vnum (.fin (-4))) (.vnum (.fin (-3))) = .ok (.vnum (.fin 2)) :=
  ⟨by with_unfolding_all rfl, by with_unfolding_all rfl, by with_unfolding_all rfl⟩

/-- Sanity: the spec scenarios `a + b * c` and `a - b - c` evaluate
correctly (the two literal examples quoted by the precedence claim do
hold; the defect needs two separate higher-priority groups). -/
theorem sanity_short_chains :
    chainEval [.vnum (.fin 1), .vnum (.fin 2), .vnum (.fin 3)] ["+", "*"] =
      .ok (.vnum (.fin 7)) ∧
    chainEval [.vnum (.fin 5), .vnum (.fin 2), .vnum (.fin 1)] ["-", "-"] =
      .ok (.vnum (.fin 2)) :=
  ⟨by with_unfolding_all rfl, by with_unfolding_all rfl⟩

/-- C3: the claim says every chain evaluates with higher precedence
binding tighter and equal precedence left-associatively.  In the
chain `1*1 - 1 - 1*1` the code's evaluation loop, at the first `-`,
pops the most recent stack entry (the result of the RIGHT `1*1`
group) instead of the positionally adjacent left result, computing
`1*1 - (1*1 - 1) = 1`, while the left-associative reading prescribed
by the claim gives `((1*1) - 1) - (1*1) = -1`. -/
theorem chainEval_wrong_operand_on_mixed_chain :
    chainEval
      [.vnum (.fin 1), .vnum (.fin 1), .vnum (.fin 1), .vnum (.fin 1), .vnum (.fin 1)]
      ["*", "-", "-", "*"] = .ok (.vnum (.fin 1)) ∧
    specChainEval
      [.vnum (.fin 1), .vnum (.fin 1), .vnum (.fin 1), .vnum (.fin 1), .vnum (.fin 1)]
      ["*", "-", "-", "*"] = .ok (.vnum (.fin (-1))) :=
  ⟨by with_unfolding_all rfl, by with_unfolding_all rfl⟩

/-- C5: the claim says negative indices count from the end in both
modes and every out-of-range index fails with an error.  In bytes
mode `GetByte` indexes the buffer with the ORIGINAL index after
computing (and discarding) the normalised one, so `bytes[-1]` is a
runtime panic instead of the last byte; in generic mode an index
below `-len` keeps a negative normalised index, which is also a
panic instead of an error.  In-range negative indexing and the
upper-bound error do work in generic mode. -/
theorem arrayGet_negative_index_panics :
    arrayGet true [] [10, 20, 30] (-1) = .crashed "runtime error: index out of range" ∧
    arrayGet false [.vnum (.fin 1), .vnum (.fin 2), .vnum (.fin 3)] [] (-4) =
      .crashed "runtime error: index out of range" ∧
    arrayGet false [.vnum (.fin 1), .vnum (.fin 2), .vnum (.fin 3)] [] (-1) =
      .ok (.vnum (.fin 3)) ∧
    arrayGet false [.vnum (.fin 1), .vnum (.fin 2), .vnum (.fin 3)] [] 3 =
      .err "index out of range" :=
  ⟨by with_unfolding_all rfl, by with_unfolding_all rfl, by with_unfolding_all rfl,
   by with_unfolding_all rfl⟩

/-- C6: the claim says a call whose block executes no return yields
`None`, also after an earlier call of the same function executed a
return.  The function scope (holding the return register 0) is
created once at lowering time and shared by all calls, and register
0 is never cleared: for `fn = |b| => ... if b ... return 42 ...`,
after `fn(true)` returns 42, the call `fn(false)` — whose block
executes no return — returns the stale 42 instead of `None`. -/
theorem funcCall_stale_return_register :
    (do
      let p1 ← funcCallBlock [1] demoFuncBody emptyScope [.vbool true]
      let p2 ← funcCallBlock [1] demoFuncBody p1.1 [.vbool false]
      pure (p1.2, p2.2) : Except String (Value × Value)) =
      .ok (.vnum (.fin 42), .vnum (.fin 42)) := by
  with_unfolding_all rfl

/-- C9: the claim says bytes-mode array contents must match for deep
equality.  `DeepEqual` compares only the generic slices, which are
empty for bytes-mode arrays, so two bytes-mode arrays with different
buffers compare equal. -/
theorem deepEqual_ignores_byte_buffers :
    deepEqual (.varr true [] [1]) (.varr true [] [2]) = true ∧
    ([1] : List Nat) ≠ [2] :=
  ⟨rfl, by decide⟩

/-- C7 counterexample: a file importing the same leaf file twice in a
row.  At the second import the path is NOT on the current chain of
in-progress imports (the first import completed), so the claim says
it succeeds; the code's `ImportedPaths` set is never popped, so the
second import fails with the cycle error, while the chain-based
semantics modelled from the spec succeeds. -/
theorem import_reimport_offchain_cex :
    codeFile [] (.file [("a", .file []), ("a", .file [])]) =
      .error "import cycle not allowed" ∧
    specFile [] (.file [("a", .file []), ("a", .file [])]) = .ok () :=
  ⟨by with_unfolding_all rfl, by with_unfolding_all rfl⟩

/-- C1 counterexample: the object built by inserting key "a" then
key "b".  The reversed map order is admissible (it is a permutation
of the entry indexes), and under it `IterFunc` visits "b" before
"a" — not the insertion order, refuting the claim that iteration
always follows insertion order. -/
theorem object_iteration_not_insertion_order_cex :
    AdmissibleSel selRev ∧
    newObject selId [.vstr "a", .vstr "b"] [.vnum (.fin 1), .vnum (.fin 2)] =
      .ok demoEntries ∧
    iterKeys selRev demoEntries = [.vstr "b", .vstr "a"] ∧
    Value.vstr "b" ≠ Value.vstr "a" :=
  ⟨fun n => (List.range n).reverse_perm, by with_unfolding_all rfl,
   by with_unfolding_all rfl, by simp⟩

/-- C2 counterexample: two `MemReader` reads of the same two-entry
object may traverse the backing Go map in different orders; the
in-order and reversed orders are both admissible and produce
different byte sequences, refuting determinism of the canonical
encoding for objects with two or more entries. -/
theorem object_encoding_not_deterministic_cex :
    AdmissibleSel selId ∧ AdmissibleSel selRev ∧
    memBytes selId (.vobj demoEntries) = .ok [5, 3, 97, 2, 49, 3, 98, 2, 50] ∧
    memBytes selRev (.vobj demoEntries) = .ok [5, 3, 98, 2, 50, 3, 97, 2, 49] ∧
    ([5, 3, 97, 2, 49, 3, 98, 2, 50] : List Nat) ≠ [5, 3, 98, 2, 50, 3, 97, 2, 49] :=
  ⟨fun _ => List.Perm.refl _, fun n => (List.range n).reverse_perm,
   by with_unfolding_all rfl, by with_unfolding_all rfl, by decide⟩

/-! ### Helper lemmas -/

/-- Reading a list at positions `0..len-1` reproduces the list. -/
theorem map_getD_range {α : Type} [Inhabited α] (l : List α) :
    (List.range l.length).map (fun i => l.getD i default) = l := by
  induction l with
  | nil => rfl
  | cons a t ih =>
      simp only [List.length_cons, List.range_succ_eq_map, List.map_cons, List.map_map,
        List.getD_cons_zero]
      refine congrArg (fun x => a :: x) ?_
      simpa [Function.comp_def, List.getD] using ih

/-- An admissible selector leaves lists of at most one element alone
(the only permutations of `[]` and `[0]` are themselves). -/
theorem applySel_short {α : Type} [Inhabited α] (σ : Sel) (h : AdmissibleSel σ) :
    ∀ l : List α, l.length ≤ 1 → applySel σ l = l
  | [], _ => by
      have h0 : σ 0 = [] := by
        have h1 := (h 0).eq_nil
        simpa using h1
      simp [applySel, h0]
  | [a], _ => by
      have h1 : σ 1 = [0] := by
        have hperm := h 1
        rw [show List.range 1 = [0] from rfl] at hperm
        exact List.perm_singleton.mp hperm
      simp [applySel, h1]
  | a :: b :: t, hl => by
      exfalso
      simp at hl

/-- The object encoder produces one chunk per stored entry. -/
theorem memBytesEntries_length (σ : Sel) :
    ∀ (es : List ObjEntry) (cs : List (List Nat)),
      memBytesEntries σ es = .ok cs → cs.length = es.length := by
  intro es
  induction es with
  | nil =>
      intro cs h
      simp only [memBytesEntries] at h
      cases h
      rfl
  | cons e t ih =>
      intro cs h
      obtain ⟨k, ko, v⟩ := e
      simp only [memBytesEntries] at h
      cases hv : memBytes σ v with
      | error e2 => rw [hv] at h; exact absurd h (by simp)
      | ok b =>
          rw [hv] at h
          cases ht : memBytesEntries σ t with
          | error e2 => rw [ht] at h; exact absurd h (by simp)
          | ok bs =>
              rw [ht] at h
              have hcs : cs = (k ++ b) :: bs := by
                cases h
                rfl
              subst hcs
              simp [ih bs ht]

/-- Mapping the payload does not change whether a result is ok. -/
theorem except_map_isOk {α β : Type} (f : α → β) (e : Except String α) :
    (e.map f).isOk = e.isOk := by
  cases e <;> rfl

/-- The `+` case of `evalBinary` on numbers errs exactly for two
infinities of opposite signs. -/
theorem evalArith_plus_isOk (l r : ENum) :
    (evalArith "+" l r).isOk = !(l.isInf && r.isInf && l.sign != r.sign) := by
  simp only [evalArith]
  cases hc : (l.isInf && r.isInf && l.sign != r.sign) <;>
    simp [hc, Except.isOk, Except.toBool]

/-- The `-` case errs exactly for two infinities of equal signs. -/
theorem evalArith_minus_isOk (l r : ENum) :
    (evalArith "-" l r).isOk = !(l.isInf && r.isInf && l.sign == r.sign) := by
  simp only [evalArith]
  cases hc : (l.isInf && r.isInf && l.sign == r.sign) <;>
    simp [hc, Except.isOk, Except.toBool]

/-- The `/` case errs exactly for 0/0 and inf/inf. -/
theorem evalArith_div_isOk (l r : ENum) :
    (evalArith "/" l r).isOk = !((l.isZero && r.isZero) || (l.isInf && r.isInf)) := by
  simp only [evalArith]
  cases h1 : (l.isZero && r.isZero) <;> cases h2 : (l.isInf && r.isInf) <;>
    simp [h1, h2, Except.isOk, Except.toBool]

/-- The `*` case errs exactly when one side is zero and the other
infinite. -/
theorem evalArith_mul_isOk (l r : ENum) :
    (evalArith "*" l r).isOk = !((l.isZero && r.isInf) || (l.isInf && r.isZero)) := by
  simp only [evalArith]
  cases hc : ((l.isZero && r.isInf) || (l.isInf && r.isZero)) <;>
    simp [hc, Except.isOk, Except.toBool]

/-- The `%` case errs exactly for an infinite or zero divisor. -/
theorem evalArith_mod_isOk (l r : ENum) :
    (evalArith "%" l r).isOk = !(r.isInf || r.isZero) := by
  simp only [evalArith]
  cases h1 : r.isInf
  · cases h2 : r.isZero
    · simp only [h1, h2, Bool.false_eq_true, if_false, Bool.or_self, Bool.not_false]
      split
      · split <;> rfl
      · split
        · rfl
        · split <;> rfl
    · simp [h1, h2, Except.isOk, Except.toBool]
  · simp [h1, Except.isOk, Except.toBool]

/-- Dividing a nonzero value by zero yields a signed infinity. -/
theorem evalArith_div_by_zero (l : ENum) (h : l.isZero = false) :
    ∃ t, evalArith "/" l (.fin 0) = .ok (.inf t) := by
  cases l with
  | fin a =>
      have ha : (a == 0) = false := by simpa [ENum.isZero] using h
      refine ⟨decide (a < 0), ?_⟩
      simp [evalArith, ENum.isZero, ENum.isInf, ha, ENum.quo]
  | inf s =>
      refine ⟨s, ?_⟩
      simp [evalArith, ENum.isZero, ENum.isInf, ENum.quo]

/-- Dividing a finite value by an infinity yields zero. -/
theorem evalArith_div_inf (q : ℚ) (s : Bool) :
    evalArith "/" (.fin q) (.inf s) = .ok (.fin 0) := by
  simp [evalArith, ENum.isZero, ENum.isInf, ENum.quo]

/-- Processing a backslash-free content in copy mode copies it. -/
theorem unescGo_no_escape (q : List Char) (hq : '\\' ∉ q) : unescGo q false = .ok q := by
  induction q with
  | nil => rw [unescGo]
  | cons c t ih =>
      have hc : c ≠ '\\' := fun h => hq (h ▸ List.mem_cons_self c t)
      have ht : '\\' ∉ t := fun h => hq (List.mem_cons_of_mem c h)
      rw [unescGo]
      simp only [hc, if_false, Bool.false_eq_true, ite_false]
      rw [ih ht]
      rfl

/-- For a flat file of leaf imports, lowering succeeds exactly when no
path occurs twice and none was already in the importer's set. -/
theorem codeImports_leaf_ok_iff (ps : List String) :
    ∀ seen : List String,
      ((codeImports seen (ps.map fun p => (p, .file []))).isOk = true ↔
        ps.Nodup ∧ ∀ p ∈ ps, p ∉ seen) := by
  induction ps with
  | nil => intro seen; simp [codeImports, Except.isOk, Except.toBool]
  | cons p t ih =>
      intro seen
      rw [List.map_cons]
      by_cases hp : p ∈ seen
      · have hstep : codeImports seen
            ((p, ImportTree.file []) :: t.map fun p => (p, ImportTree.file [])) =
            .error "import cycle not allowed" := by
          simp only [codeImports, codeImport, hp, if_true]
          rfl
        rw [hstep]
        simp only [Except.isOk, Except.toBool, Bool.false_eq_true, false_iff]
        rintro ⟨hnd, hall⟩
        exact (hall p (List.mem_cons_self p t)) hp
      · have hstep : codeImports seen
            ((p, ImportTree.file []) :: t.map fun p => (p, ImportTree.file [])) =
            codeImports (p :: seen) (t.map fun p => (p, ImportTree.file [])) := by
          simp only [codeImports, codeImport, hp, if_false, codeFile]
          rfl
        rw [hstep, ih (p :: seen), List.nodup_cons]
        constructor
        · rintro ⟨hnd, hall⟩
          refine ⟨⟨?_, hnd⟩, ?_⟩
          · intro hmem
            exact (hall p hmem) (List.mem_cons_self p seen)
          · intro x hx
            rcases List.mem_cons.mp hx with h | h
            · subst h; exact hp
            · exact fun hxs => (hall x h) (List.mem_cons_of_mem p hxs)
        · rintro ⟨⟨hpt, hnd⟩, hall⟩
          refine ⟨hnd, ?_⟩
          intro x hx hmem
          rcases List.mem_cons.mp hmem with h | h
          · subst h; exact hpt hx
          · exact (hall x (List.mem_cons_of_mem p hx)) h

/-- The chain-based (spec-modelled) semantics accepts every flat file
of leaf imports: a sibling import is never on the current chain. -/
theorem specFile_leaf_ok (ps : List String) :
    specFile [] (leafFile ps) = .ok () := by
  have hgen : ∀ l : List String,
      specImports [] (l.map fun p => (p, ImportTree.file [])) = .ok () := by
    intro l
    induction l with
    | nil => rfl
    | cons p t ih =>
        rw [List.map_cons]
        have hstep : specImports []
            ((p, ImportTree.file []) :: t.map fun p => (p, ImportTree.file [])) =
            specImports [] (t.map fun p => (p, ImportTree.file [])) := by
          simp only [specImports, specImport, List.not_mem_nil, if_false, specFile]
          rfl
        rw [hstep, ih]
  simpa [specFile, leafFile] using hgen ps

mutual
/-- On values without multi-entry objects the canonical encoding does
not depend on the map order selector. -/
theorem memBytes_det (σ₁ σ₂ : Sel) (h₁ : AdmissibleSel σ₁) (h₂ : AdmissibleSel σ₂) :
    ∀ v : Value, noMultiObj v = true → memBytes σ₁ v = memBytes σ₂ v
  | .vnone, _ => rfl
  | .vbool _, _ => rfl
  | .vnum _, _ => rfl
  | .vstr _, _ => rfl
  | .vfunc, _ => rfl
  | .varr b v bs, h => by
      have hl := memBytesList_det σ₁ σ₂ h₁ h₂ v (by simpa [noMultiObj] using h)
      simp only [memBytes, hl]
  | .vobj es, h => by
      have hparts : decide (es.length ≤ 1) = true ∧ noMultiObjEntries es = true := by
        simpa [noMultiObj, Bool.and_eq_true] using h
      have hlen : es.length ≤ 1 := of_decide_eq_true hparts.1
      have hE := memBytesEntries_det σ₁ σ₂ h₁ h₂ es hparts.2
      simp only [memBytes, hE]
      cases hcs : memBytesEntries σ₂ es with
      | error e => rfl
      | ok cs =>
          have hcl : cs.length ≤ 1 := by
            rw [memBytesEntries_length σ₂ es cs hcs]
            exact hlen
          simp only [Except.map, applySel_short σ₁ h₁ cs hcl, applySel_short σ₂ h₂ cs hcl]
/-- List version of `memBytes_det` for array elements. -/
theorem memBytesList_det (σ₁ σ₂ : Sel) (h₁ : AdmissibleSel σ₁) (h₂ : AdmissibleSel σ₂) :
    ∀ vs : List Value, noMultiObjList vs = true → memBytesList σ₁ vs = memBytesList σ₂ vs
  | [], _ => rfl
  | v :: vs, h => by
      have hh : noMultiObj v = true ∧ noMultiObjList vs = true := by
        simpa [noMultiObjList, Bool.and_eq_true] using h
      have hv := memBytes_det σ₁ σ₂ h₁ h₂ v hh.1
      have hvs := memBytesList_det σ₁ σ₂ h₁ h₂ vs hh.2
      simp only [memBytesList, hv, hvs]
/-- Entry version of `memBytes_det` for object values. -/
theorem memBytesEntries_det (σ₁ σ₂ : Sel) (h₁ : AdmissibleSel σ₁) (h₂ : AdmissibleSel σ₂) :
    ∀ es : List ObjEntry, noMultiObjEntries es = true →
      memBytesEntries σ₁ es = memBytesEntries σ₂ es
  | [], _ => rfl
  | (k, ko, v) :: es, h => by
      have hh : noMultiObj v = true ∧ noMultiObjEntries es = true := by
        simpa [noMultiObjEntries, Bool.and_eq_true] using h
      have hv := memBytes_det σ₁ σ₂ h₁ h₂ v hh.1
      have hes := memBytesEntries_det σ₁ σ₂ h₁ h₂ es hh.2
      simp only [memBytesEntries, hv, hes]
end

/-! ### Claim theorems (amended and confirmed statements) -/

/-- C1 amended: iterating an `Object` (for-statement / `IterFunc`)
visits each stored entry exactly once — the visited (original key,
value) pairs are a permutation of the stored entries — but in the
unspecified Go map range order, which need not be (and is not
recorded as) the key insertion order. -/
theorem object_iteration_visits_entries_once (σ : Sel) (h : AdmissibleSel σ)
    (es : List ObjEntry) :
    (iterItems σ es).Perm (es.map fun e => (e.2.1, e.2.2)) := by
  have h1 : (applySel σ es).Perm es := by
    have h2 := (h es.length).map (fun i => es.getD i default)
    rw [map_getD_range] at h2
    exact h2
  exact h1.map _

/-- Witness for `object_iteration_visits_entries_once` at the
reversed selector and the two-entry demo object. -/
theorem object_iteration_visits_entries_once_witness :
    AdmissibleSel selRev ∧
    (iterItems selRev demoEntries).Perm (demoEntries.map fun e => (e.2.1, e.2.2)) :=
  ⟨fun n => (List.range n).reverse_perm,
   object_iteration_visits_entries_once selRev
     (fun n => (List.range n).reverse_perm) demoEntries⟩

/-- C2 amended: the canonical byte encoding is deterministic — equal
across any two admissible map orders, hence across repeated reads —
for every value containing no object of two or more entries; for an
object with two or more entries two reads may differ
(`object_encoding_not_deterministic_cex`). -/
theorem object_encoding_deterministic_on_small_objects
    (σ₁ σ₂ : Sel) (h₁ : AdmissibleSel σ₁) (h₂ : AdmissibleSel σ₂)
    (v : Value) (h : noMultiObj v = true) : memBytes σ₁ v = memBytes σ₂ v :=
  memBytes_det σ₁ σ₂ h₁ h₂ v h

/-- Witness for `object_encoding_deterministic_on_small_objects` at
the identity and reversed selectors and a one-entry object. -/
theorem object_encoding_deterministic_witness :
    AdmissibleSel selId ∧ AdmissibleSel selRev ∧ noMultiObj demoSingleObj = true ∧
    memBytes selId demoSingleObj = memBytes selRev demoSingleObj :=
  ⟨fun _ => List.Perm.refl _, fun n => (List.range n).reverse_perm, rfl,
   object_encoding_deterministic_on_small_objects selId selRev
     (fun _ => List.Perm.refl _) (fun n => (List.range n).reverse_perm)
     demoSingleObj rfl⟩

/-- C4 counterexample: `4 % -3` evaluates to `1`, which is positive
although the divisor is negative — the result does not share the
divisor's sign (the repository's own test
`Binary_ArithOp_Mod_Int_NegY` expects exactly this value). -/
theorem int_mod_divisor_sign_cex :
    evalBinary "%" (.vnum (.fin 4)) (.vnum (.fin (-3))) = .ok (.vnum (.fin 1)) ∧
    ¬ ((1 : ℚ) ≤ 0) :=
  ⟨by with_unfolding_all rfl, by norm_num⟩

/-- C4 amended: for integer operands with a nonzero divisor, `%`
computes the Euclidean modulus `Int.emod` (as `big.Int.Mod` does):
the result is always non-negative and below the absolute value of
the divisor, regardless of the divisor's sign; in particular
`-4 % 3 = 2`. -/
theorem int_mod_euclidean_nonneg (x y : Int) (hy : y ≠ 0) :
    evalBinary "%" (.vnum (.fin (x : ℚ))) (.vnum (.fin (y : ℚ))) =
      .ok (.vnum (.fin ((x.emod y : Int) : ℚ))) ∧
    0 ≤ x.emod y ∧ x.emod y < (y.natAbs : Int) := by
  refine ⟨?_, Int.emod_nonneg x hy, ?_⟩
  · rw [show evalBinary "%" (.vnum (.fin (x : ℚ))) (.vnum (.fin (y : ℚ))) =
        (evalArith "%" (.fin (x : ℚ)) (.fin (y : ℚ))).map Value.vnum from rfl]
    have hz : (((y : ℚ)) == 0) = false := by
      simp only [beq_eq_false_iff_ne, ne_eq, Int.cast_eq_zero]
      exact hy
    simp only [evalArith, ENum.isInf, ENum.isZero, ENum.isInt, hz, Rat.den_intCast,
      Rat.num_intCast, Bool.false_eq_true, if_false, beq_self_eq_true, Bool.and_self,
      if_true, Except.map]
  · rw [Int.natCast_natAbs]
    exact Int.emod_lt x hy

/-- Witness for `int_mod_euclidean_nonneg` at `-4 % 3`, whose
Euclidean result is `2`. -/
theorem int_mod_euclidean_nonneg_witness :
    (3 : Int) ≠ 0 ∧ (-4 : Int).emod 3 = 2 ∧
    (evalBinary "%" (.vnum (.fin ((-4 : Int) : ℚ))) (.vnum (.fin ((3 : Int) : ℚ))) =
      .ok (.vnum (.fin (((-4 : Int).emod 3 : Int) : ℚ))) ∧
    0 ≤ (-4 : Int).emod 3 ∧ (-4 : Int).emod 3 < ((3 : Int).natAbs : Int)) :=
  ⟨by decide, by decide, int_mod_euclidean_nonneg (-4) 3 (by decide)⟩

/-- C7 amended: an `import` fails with the cycle error exactly when
the path is already in the accumulated set of ALL the paths that were
ever imported in this execution — the set is never popped when an
imported file completes, so a duplicated path always fails, whether or not
it is still on the chain of in-progress imports; under the
chain-based semantics the same flat files always succeed. -/
theorem import_cycle_error_iff_ever_imported (ps : List String) :
    ((codeFile [] (leafFile ps)).isOk = true ↔ ps.Nodup) ∧
    specFile [] (leafFile ps) = .ok () := by
  constructor
  · have h := codeImports_leaf_ok_iff ps []
    simp only [leafFile, codeFile]
    rw [h]
    simp
  · exact specFile_leaf_ok ps

/-- Witness for `import_cycle_error_iff_ever_imported` at the
duplicated flat file, where lowering fails. -/
theorem import_cycle_error_iff_ever_imported_witness :
    ¬ (["a", "a"].Nodup) ∧ (codeFile [] (leafFile ["a", "a"])).isOk = false ∧
    specFile [] (leafFile ["a", "a"]) = .ok () :=
  ⟨by decide,
   by
     have h := (import_cycle_error_iff_ever_imported ["a", "a"]).1
     have hnd : ¬ (["a", "a"].Nodup) := by decide
     cases hok : (codeFile [] (leafFile ["a", "a"])).isOk with
     | false => rfl
     | true => exact absurd (h.mp hok) hnd,
   (import_cycle_error_iff_ever_imported ["a", "a"]).2⟩

/-- C8: on `Num` operands, `evalBinary` raises an error exactly in
the enumerated cases — `+` iff both operands are infinite with
opposite signs, `-` iff both are infinite with equal signs, `/` iff
0/0 or inf/inf, `*` iff one operand is zero and the other infinite,
`%` iff the divisor is infinite or zero — while `x/0` for nonzero
`x` yields a signed infinity and `x/inf` for finite `x` yields 0. -/
theorem evalBinary_num_error_enumeration (l r : ENum) :
    ((evalBinary "+" (.vnum l) (.vnum r)).isOk =
      !(l.isInf && r.isInf && l.sign != r.sign)) ∧
    ((evalBinary "-" (.vnum l) (.vnum r)).isOk =
      !(l.isInf && r.isInf && l.sign == r.sign)) ∧
    ((evalBinary "/" (.vnum l) (.vnum r)).isOk =
      !((l.isZero && r.isZero) || (l.isInf && r.isInf))) ∧
    ((evalBinary "*" (.vnum l) (.vnum r)).isOk =
      !((l.isZero && r.isInf) || (l.isInf && r.isZero))) ∧
    ((evalBinary "%" (.vnum l) (.vnum r)).isOk = !(r.isInf || r.isZero)) ∧
    (l.isZero = false →
      ∃ t, evalBinary "/" (.vnum l) (.vnum (.fin 0)) = .ok (.vnum (.inf t))) ∧
    (l.isInf = false →
      ∀ s, evalBinary "/" (.vnum l) (.vnum (.inf s)) = .ok (.vnum (.fin 0))) := by
  refine ⟨?_, ?_, ?_, ?_, ?_, ?_, ?_⟩
  · rw [show evalBinary "+" (.vnum l) (.vnum r) = (evalArith "+" l r).map Value.vnum from
      rfl, except_map_isOk]
    exact evalArith_plus_isOk l r
  · rw [show evalBinary "-" (.vnum l) (.vnum r) = (evalArith "-" l r).map Value.vnum from
      rfl, except_map_isOk]
    exact evalArith_minus_isOk l r
  · rw [show evalBinary "/" (.vnum l) (.vnum r) = (evalArith "/" l r).map Value.vnum from
      rfl, except_map_isOk]
    exact evalArith_div_isOk l r
  · rw [show evalBinary "*" (.vnum l) (.vnum r) = (evalArith "*" l r).map Value.vnum from
      rfl, except_map_isOk]
    exact evalArith_mul_isOk l r
  · rw [show evalBinary "%" (.vnum l) (.vnum r) = (evalArith "%" l r).map Value.vnum from
      rfl, except_map_isOk]
    exact evalArith_mod_isOk l r
  · intro h
    obtain ⟨t, ht⟩ := evalArith_div_by_zero l h
    refine ⟨t, ?_⟩
    rw [show evalBinary "/" (.vnum l) (.vnum (.fin 0)) =
      (evalArith "/" l (.fin 0)).map Value.vnum from rfl, ht]
    rfl
  · intro h s
    cases l with
    | fin q =>
        rw [show evalBinary "/" (.vnum (.fin q)) (.vnum (.inf s)) =
          (evalArith "/" (.fin q) (.inf s)).map Value.vnum from rfl, evalArith_div_inf]
        rfl
    | inf t => simp [ENum.isInf] at h

/-- Witness for `evalBinary_num_error_enumeration` at `1/0` (signed
infinity) and `1/inf` (zero). -/
theorem evalBinary_num_error_enumeration_witness :
    (ENum.fin 1).isZero = false ∧ (ENum.fin 1).isInf = false ∧
    (∃ t, evalBinary "/" (.vnum (.fin 1)) (.vnum (.fin 0)) = .ok (.vnum (.inf t))) ∧
    evalBinary "/" (.vnum (.fin 1)) (.vnum (.inf false)) = .ok (.vnum (.fin 0)) :=
  ⟨rfl, rfl, (evalBinary_num_error_enumeration (.fin 1) (.fin 0)).2.2.2.2.2.1 rfl,
   ((evalBinary_num_error_enumeration (.fin 1) (.inf false)).2.2.2.2.2.2 rfl) false⟩

/-- C10: a backslash followed by a character outside the recognised
escape set is not a compile error: the string lowers successfully
and both the backslash and the following character are silently
dropped (the escape switch has no default case), the surrounding
content being copied unchanged. -/
theorem unrecognized_escape_dropped (p q : List Char) (c : Char)
    (hp : '\\' ∉ p) (hq : '\\' ∉ q) (hc : recognizedEsc c = false) :
    unescGo (p ++ '\\' :: c :: q) false = .ok (p ++ q) := by
  have hcs : ¬(c = 'a' ∨ c = 'b' ∨ c = 'f' ∨ c = 'n' ∨ c = 'r' ∨ c = 't' ∨ c = 'v' ∨
      c = '\\' ∨ c = '\'' ∨ c = '"' ∨ c = 'u' ∨ c = 'U') := by
    simpa [recognizedEsc] using hc
  push_neg at hcs
  obtain ⟨ha, hb, hf, hn, hr, ht, hv, hbs, hq1, hq2, hu, hU⟩ := hcs
  revert hp
  induction p with
  | nil =>
      intro _
      simp only [List.nil_append]
      rw [unescGo]
      simp only [if_pos rfl, List.isEmpty_cons, Bool.false_eq_true, ite_false]
      rw [unescGo]
      simp only [hbs, hu, hU, ha, hb, hf, hn, hr, ht, hv, hq1, hq2, if_false, if_true,
        ite_false, ite_true]
      exact unescGo_no_escape q hq
  | cons x xs ih =>
      intro hp
      have hx : x ≠ '\\' := fun h => hp (h ▸ List.mem_cons_self x xs)
      have hxs : '\\' ∉ xs := fun h => hp (List.mem_cons_of_mem x h)
      simp only [List.cons_append]
      rw [unescGo]
      simp only [hx, if_false, Bool.false_eq_true, ite_false]
      rw [ih hxs]
      rfl

/-- Witness for `unrecognized_escape_dropped` on the content
`x\zy`, which lowers to `xy`. -/
theorem unrecognized_escape_dropped_witness :
    ('\\' ∉ ['x']) ∧ ('\\' ∉ ['y']) ∧ recognizedEsc 'z' = false ∧
    unescGo (['x'] ++ '\\' :: 'z' :: ['y']) false = .ok (['x'] ++ ['y']) :=
  ⟨by decide, by decide, by decide,
   unrecognized_escape_dropped ['x'] ['y'] 'z' (by decide) (by decide) (by decide)⟩

end EL
